import Mathlib

/-!
Verification of the AutoML-Zero functional-equivalence-checking (FEC) cache,
`automl_zero/fec_cache.h`: the `CachedEvaluation` record, the `FECCache`
LRU store (`Find`, `InsertOrDie`, `UpdateOrDie`, `Clear`, accessors) and the
`Hash` key-derivation function.

The header gives the data model and the inline (empty) body of `UpdateOrDie`
directly; the bodies of `Find`, `InsertOrDie`, `Clear` and `Hash` live in
`fec_cache.cc` and in the internal `SmallLRUCache` template, which are not
part of the sources here, so those operations are modelled from the spec
(each such definition says so in its doc comment).

Modelling conventions: `size_t` keys are `Nat`; `double` fitness values are
`ℚ` (the cache only stores and returns them, no floating-point arithmetic is
performed); `IntegerT` is `Int`. The LRU store is a list of key/record pairs
ordered most-recently-used first; keys in the store are unique because
insertion refuses keys that are already present.
-/

/-- Modelled from the spec: the `kMinFitness` sentinel comes from
`definitions.h`, which is not among the sources; the spec only requires it to
be a named minimum sentinel ("a defined minimum sentinel (`MIN_FITNESS`) used
as the default/absent value"), so its numeric value is fixed here as `0`. -/
def kMinFitness : ℚ := 0

/-- The `CachedEvaluation` record of `fec_cache.h`: a fitness and an
observation count. -/
structure CachedEvaluation where
  fitness : ℚ
  count : Int
deriving DecidableEq, Repr

/-- The default constructor `CachedEvaluation()`: `fitness = kMinFitness;
count = 0;`. -/
def CachedEvaluation.mkDefault : CachedEvaluation :=
  { fitness := kMinFitness, count := 0 }

/-- The constructor `CachedEvaluation(const double fitness)`:
`this->fitness = fitness; count = 1;`. -/
def CachedEvaluation.ofFitness (fitness : ℚ) : CachedEvaluation :=
  { fitness := fitness, count := 1 }

/-- Modelled from the spec: the `FECCacheSpec` proto (`fec_cache.proto`) is
not among the sources; per the spec it is an immutable configuration record
with a maximum entry count (capacity) and the two example counts. -/
structure FECCacheSpec where
  cacheSize : Nat
  numTrainExamples : Int
  numValidExamples : Int
deriving DecidableEq, Repr

/-- The `FECCache` state: its immutable spec and the LRU store. The store is
kept as a list of key/record pairs, most-recently-used first; the
least-recently-used entry is the last element. -/
structure FECCache where
  spec : FECCacheSpec
  cache : List (Nat × CachedEvaluation)
deriving DecidableEq, Repr

/-- The constructor `FECCache(const FECCacheSpec& spec)`: stores the spec and
starts with an empty store. -/
def FECCache.init (spec : FECCacheSpec) : FECCache :=
  { spec := spec, cache := [] }

/-- Whether a key is present in the store. -/
def FECCache.contains (c : FECCache) (hash : Nat) : Bool :=
  (c.cache.find? (fun p => p.1 == hash)).isSome

/-- The record stored under a key, if present. -/
def FECCache.lookup (c : FECCache) (hash : Nat) : Option CachedEvaluation :=
  (c.cache.find? (fun p => p.1 == hash)).map Prod.snd

/-- Modelled from the spec: `FECCache::Find` is implemented in `fec_cache.cc`
and `SmallLRUCache`, not among the sources. Per the spec: on hit it returns
the stored fitness and `true` and promotes the entry to most-recently-used;
on miss it returns `(MIN_FITNESS, false)` and mutates nothing; it never
fails. Promotion moves the entry to the front; since keys in the store are
unique, filtering the key out of the tail removes exactly that entry. -/
def FECCache.Find (c : FECCache) (hash : Nat) : (ℚ × Bool) × FECCache :=
  match c.cache.find? (fun p => p.1 == hash) with
  | none => ((kMinFitness, false), c)
  | some p => ((p.2.fitness, true),
      { c with cache := p :: c.cache.filter (fun q => q.1 != hash) })

/-- Modelled from the spec: `FECCache::InsertOrDie` is implemented in
`fec_cache.cc` and `SmallLRUCache`, not among the sources. Per the spec and
the header comment ("Call only if the hash was not found"), inserting a key
already present is a fatal error, modelled as `none`; otherwise a fresh
`CachedEvaluation` with `count = 1` is inserted most-recently-used and, if
the store exceeds capacity, the least-recently-used entry (the last) is
evicted, which `take cacheSize` performs. -/
def FECCache.InsertOrDie (c : FECCache) (hash : Nat) (fitness : ℚ) :
    Option FECCache :=
  if c.contains hash then none
  else some { c with
    cache := ((hash, CachedEvaluation.ofFitness fitness) :: c.cache).take
      c.spec.cacheSize }

/-- `FECCache::UpdateOrDie` from `fec_cache.h`: the body is inline and empty
(`void UpdateOrDie(size_t hash, double fitness) {}`), so the operation
returns normally with the state unchanged, whatever its arguments. -/
def FECCache.UpdateOrDie (c : FECCache) (_hash : Nat) (_fitness : ℚ) :
    FECCache :=
  c

/-- Modelled from the spec: `FECCache::Clear` is implemented in
`fec_cache.cc`, not among the sources. Per the spec it removes all entries,
unconditionally. -/
def FECCache.Clear (c : FECCache) : FECCache :=
  { c with cache := [] }

/-- `FECCache::NumTrainExamples`: returns the configured count. -/
def FECCache.NumTrainExamples (c : FECCache) : Int :=
  c.spec.numTrainExamples

/-- `FECCache::NumValidExamples`: returns the configured count. -/
def FECCache.NumValidExamples (c : FECCache) : Int :=
  c.spec.numValidExamples

/-- A sequence of `InsertOrDie` calls, failing as soon as one call fails. -/
def insertAll (c : FECCache) (kfs : List (Nat × ℚ)) : Option FECCache :=
  kfs.foldlM (fun c kf => c.InsertOrDie kf.1 kf.2) c

/-- The store entry created by inserting a key/fitness pair. -/
def entryOf (kf : Nat × ℚ) : Nat × CachedEvaluation :=
  (kf.1, CachedEvaluation.ofFitness kf.2)

/-- A 64-bit mixing step for the key derivation. -/
def mix64 (a b : Nat) : Nat :=
  (a * 6364136223846793005 + b * 1442695040888963407 + 2654435769) % 2 ^ 64

/-- An injection of `Int` into `Nat` used as a hash component. -/
def natOfInt (i : Int) : Nat :=
  2 * i.natAbs + (if 0 ≤ i then 0 else 1)

/-- A hash component for a rational error value. -/
def natOfRat (q : ℚ) : Nat :=
  mix64 (natOfInt q.num) q.den

/-- Modelled from the spec: `FECCache::Hash` is implemented in
`fec_cache.cc` (using a well-mixed hash over the error values, the dataset
index and the training-example count), not among the sources. Per the spec it
is a pure, deterministic, order-sensitive function of the two ordered error
sequences, the dataset identifier and the training-example count, producing
a fixed-width (64-bit) unsigned integer, defined for empty sequences too. -/
def FECCache.Hash (train_errors valid_errors : List ℚ)
    (dataset_index num_train_examples : Int) : Nat :=
  let h0 := mix64 (natOfInt dataset_index) (natOfInt num_train_examples)
  let h1 := train_errors.foldl (fun acc e => mix64 acc (natOfRat e)) h0
  valid_errors.foldl (fun acc e => mix64 acc (natOfRat e)) (mix64 h1 97)

/-- The stored-record invariant of the spec: every present record has
`count ≥ 1`. -/
def FECCache.Inv (c : FECCache) : Prop :=
  ∀ p ∈ c.cache, 1 ≤ p.2.count

/-- A concrete configuration used by witnesses. -/
def specEx : FECCacheSpec :=
  { cacheSize := 2, numTrainExamples := 10, numValidExamples := 5 }

/-- A concrete cache holding one entry, used by witnesses. -/
def cacheEx : FECCache :=
  { spec := specEx, cache := [(5, CachedEvaluation.ofFitness (1 / 2))] }

/-! ## Helper lemmas about the store -/

theorem mix64_lt (a b : Nat) : mix64 a b < 2 ^ 64 :=
  Nat.mod_lt _ (Nat.two_pow_pos 64)

theorem foldl_mix_lt (f : ℚ → Nat) (l : List ℚ) (a : Nat) (h : a < 2 ^ 64) :
    l.foldl (fun acc e => mix64 acc (f e)) a < 2 ^ 64 := by
  induction l generalizing a with
  | nil => exact h
  | cons x xs ih =>
    rw [List.foldl_cons]
    exact ih _ (mix64_lt _ _)

theorem contains_iff_exists (c : FECCache) (k : Nat) :
    c.contains k = true ↔ ∃ p ∈ c.cache, p.1 = k := by
  unfold FECCache.contains
  rw [List.find?_isSome]
  simp

theorem contains_false_iff_forall (c : FECCache) (k : Nat) :
    c.contains k = false ↔ ∀ p ∈ c.cache, p.1 ≠ k := by
  rw [← Bool.not_eq_true, contains_iff_exists]
  push_neg
  rfl

theorem find?_eq_none_of_contains_false (c : FECCache) (k : Nat)
    (h : c.contains k = false) :
    c.cache.find? (fun p => p.1 == k) = none := by
  rw [contains_false_iff_forall] at h
  rw [List.find?_eq_none]
  intro p hp
  simpa using h p hp

theorem Find_of_find?_eq_none (c : FECCache) (k : Nat)
    (h : c.cache.find? (fun p => p.1 == k) = none) :
    c.Find k = ((kMinFitness, false), c) := by
  unfold FECCache.Find
  rw [h]

theorem Find_of_find?_eq_some (c : FECCache) (k : Nat)
    (p : Nat × CachedEvaluation)
    (h : c.cache.find? (fun q => q.1 == k) = some p) :
    c.Find k = ((p.2.fitness, true),
      { c with cache := p :: c.cache.filter (fun q => q.1 != k) }) := by
  unfold FECCache.Find
  rw [h]

theorem Find_snd_eq_contains (c : FECCache) (k : Nat) :
    ((c.Find k).1).2 = c.contains k := by
  unfold FECCache.Find FECCache.contains
  cases h : c.cache.find? (fun p => p.1 == k) <;> simp [h]

theorem InsertOrDie_of_contains_false (c : FECCache) (k : Nat) (f : ℚ)
    (h : c.contains k = false) :
    c.InsertOrDie k f = some { c with
      cache := ((k, CachedEvaluation.ofFitness f) :: c.cache).take
        c.spec.cacheSize } := by
  unfold FECCache.InsertOrDie
  simp [h]

theorem find_fst_of_head (s : FECCacheSpec) (k : Nat) (ev : CachedEvaluation)
    (rest : List (Nat × CachedEvaluation)) :
    ((FECCache.mk s ((k, ev) :: rest)).Find k).1 = (ev.fitness, true) := by
  have h : ((k, ev) :: rest).find? (fun p => p.1 == k) = some (k, ev) :=
    List.find?_cons_of_pos _ (by simp)
  rw [Find_of_find?_eq_some _ k (k, ev) h]

theorem lookup_head (s : FECCacheSpec) (k : Nat) (ev : CachedEvaluation)
    (rest : List (Nat × CachedEvaluation)) :
    (FECCache.mk s ((k, ev) :: rest)).lookup k = some ev := by
  have h : ((k, ev) :: rest).find? (fun p => p.1 == k) = some (k, ev) :=
    List.find?_cons_of_pos _ (by simp)
  unfold FECCache.lookup
  rw [h]
  rfl

theorem take_append_take {α : Type} (R X : List α) (N : Nat) :
    (R ++ X.take N).take N = (R ++ X).take N := by
  rw [List.take_append_eq_append_take, List.take_append_eq_append_take,
    List.take_take, Nat.min_eq_left (Nat.sub_le N R.length)]

theorem insertAll_eq (s : FECCacheSpec) (L : List (Nat × ℚ)) :
    ∀ M : List (Nat × CachedEvaluation),
      (L.map Prod.fst).Nodup →
      (∀ kf ∈ L, ∀ p ∈ M, kf.1 ≠ p.1) →
      M.length ≤ s.cacheSize →
      insertAll (FECCache.mk s M) L =
        some (FECCache.mk s
          (((L.map entryOf).reverse ++ M).take s.cacheSize)) := by
  induction L with
  | nil =>
    intro M hnd hdisj hlen
    simp [insertAll, List.take_of_length_le hlen]
  | cons kf L ih =>
    intro M hnd hdisj hlen
    rw [List.map_cons, List.nodup_cons] at hnd
    obtain ⟨hk, hnd'⟩ := hnd
    have hcont : (FECCache.mk s M).contains kf.1 = false := by
      rw [contains_false_iff_forall]
      intro p hp
      exact (hdisj kf (List.mem_cons_self _ _) p hp).symm
    have hstep := InsertOrDie_of_contains_false (FECCache.mk s M) kf.1 kf.2 hcont
    have hdisj' : ∀ kf' ∈ L,
        ∀ p ∈ ((kf.1, CachedEvaluation.ofFitness kf.2) :: M).take s.cacheSize,
        kf'.1 ≠ p.1 := by
      intro kf' hkf' p hp
      rcases List.mem_cons.mp (List.mem_of_mem_take hp) with h | h
      · subst h
        intro hEq
        exact hk (hEq ▸ List.mem_map_of_mem Prod.fst hkf')
      · exact hdisj kf' (List.mem_cons_of_mem _ hkf') p h
    have hlen' :
        (((kf.1, CachedEvaluation.ofFitness kf.2) :: M).take
          s.cacheSize).length ≤ s.cacheSize :=
      List.length_take_le _ _
    have hrec := ih (((kf.1, CachedEvaluation.ofFitness kf.2) :: M).take
      s.cacheSize) hnd' hdisj' hlen'
    have hunfold : insertAll (FECCache.mk s M) (kf :: L) =
        ((FECCache.mk s M).InsertOrDie kf.1 kf.2).bind
          (fun c => insertAll c L) := rfl
    have hlist :
        ((L.map entryOf).reverse ++
            (((kf.1, CachedEvaluation.ofFitness kf.2) :: M).take
              s.cacheSize)).take s.cacheSize =
          ((((kf :: L).map entryOf).reverse ++ M)).take s.cacheSize := by
      rw [take_append_take, List.map_cons, List.reverse_cons,
        List.append_assoc, List.singleton_append]
      rfl
    rw [hunfold, hstep]
    show insertAll (FECCache.mk s
      (((kf.1, CachedEvaluation.ofFitness kf.2) :: M).take s.cacheSize)) L = _
    rw [hrec, hlist]

/-! ## Claims -/

/-- C1: if a key is absent (its `Find` returned `found = false`) and
`InsertOrDie` is then called with fitness `f`, a subsequent `Find` on that
key returns `(f, true)`; on an empty (freshly constructed) cache, `Find`
returns `(kMinFitness, false)`. -/
theorem find_miss_insert_find_hit (s : FECCacheSpec) (c : FECCache)
    (k k0 : Nat) (f : ℚ)
    (habs : ((c.Find k).1).2 = false) (hcap : 1 ≤ c.spec.cacheSize) :
    ((FECCache.init s).Find k0).1 = (kMinFitness, false) ∧
    ∃ c', c.InsertOrDie k f = some c' ∧ (c'.Find k).1 = (f, true) := by
  constructor
  · rfl
  · rw [Find_snd_eq_contains] at habs
    refine ⟨_, InsertOrDie_of_contains_false c k f habs, ?_⟩
    obtain ⟨m, hm⟩ : ∃ m, c.spec.cacheSize = m + 1 :=
      ⟨c.spec.cacheSize - 1, (Nat.succ_pred_eq_of_pos hcap).symm⟩
    rw [hm, List.take_succ_cons]
    exact find_fst_of_head c.spec k (CachedEvaluation.ofFitness f) _

/-- Witness for C1 at a concrete cache, key and fitness. -/
theorem find_miss_insert_find_hit_witness :
    (((cacheEx.Find 7).1).2 = false ∧ 1 ≤ cacheEx.spec.cacheSize) ∧
    ((FECCache.init specEx).Find 3).1 = (kMinFitness, false) ∧
    ∃ c', cacheEx.InsertOrDie 7 (9 / 10) = some c' ∧
      (c'.Find 7).1 = (9 / 10, true) :=
  ⟨⟨by decide, by decide⟩,
    find_miss_insert_find_hit specEx cacheEx 7 3 (9 / 10) (by decide)
      (by decide)⟩

/-- C2: `Find` on an absent key returns exactly `(kMinFitness, false)` and
leaves the whole cache state (entries and recency order) unchanged; there is
no error outcome. -/
theorem find_miss_returns_sentinel_no_mutation (c : FECCache) (k : Nat)
    (h : c.contains k = false) :
    c.Find k = ((kMinFitness, false), c) :=
  Find_of_find?_eq_none c k (find?_eq_none_of_contains_false c k h)

/-- Witness for C2 at a concrete non-empty cache and absent key. -/
theorem find_miss_returns_sentinel_no_mutation_witness :
    cacheEx.contains 7 = false ∧
    cacheEx.Find 7 = ((kMinFitness, false), cacheEx) :=
  ⟨by decide, find_miss_returns_sentinel_no_mutation cacheEx 7 (by decide)⟩

/-- C5: the key derivation is deterministic — equal inputs (same error
sequences in the same order, same dataset identifier, same training-example
count) yield the same key — and total, always producing a fixed-width
(64-bit) unsigned key, for empty error sequences too. -/
theorem hash_deterministic_and_total (te1 te2 ve1 ve2 : List ℚ)
    (d1 d2 n1 n2 : Int) (hte : te1 = te2) (hve : ve1 = ve2)
    (hd : d1 = d2) (hn : n1 = n2) :
    FECCache.Hash te1 ve1 d1 n1 = FECCache.Hash te2 ve2 d2 n2 ∧
    FECCache.Hash te1 ve1 d1 n1 < 2 ^ 64 := by
  subst hte hve hd hn
  refine ⟨rfl, ?_⟩
  unfold FECCache.Hash
  exact foldl_mix_lt natOfRat _ _ (mix64_lt _ _)

/-- Witness for C5 at empty error sequences. -/
theorem hash_deterministic_and_total_witness :
    FECCache.Hash [] [] 0 0 = FECCache.Hash [] [] 0 0 ∧
    FECCache.Hash [] [] 0 0 < 2 ^ 64 :=
  hash_deterministic_and_total [] [] [] [] 0 0 0 0 rfl rfl rfl rfl

/-- C6: inserting a key that is already present is a fatal error (`none`):
no state in which the stored record is overwritten is ever produced; under
the precondition that the key is absent, `InsertOrDie` never fails. -/
theorem insert_present_is_fatal (c : FECCache) (k : Nat) (f : ℚ) :
    (c.contains k = true → c.InsertOrDie k f = none) ∧
    (c.contains k = false → (c.InsertOrDie k f).isSome = true) := by
  constructor
  · intro h
    unfold FECCache.InsertOrDie
    simp [h]
  · intro h
    rw [InsertOrDie_of_contains_false c k f h]
    rfl

/-- Witness for C6: a present key makes insertion die, an absent key makes
it succeed. -/
theorem insert_present_is_fatal_witness :
    (cacheEx.contains 5 = true ∧ cacheEx.InsertOrDie 5 1 = none) ∧
    (cacheEx.contains 8 = false ∧ (cacheEx.InsertOrDie 8 1).isSome = true) :=
  ⟨⟨by decide, (insert_present_is_fatal cacheEx 5 1).1 (by decide)⟩,
   ⟨by decide, (insert_present_is_fatal cacheEx 8 1).2 (by decide)⟩⟩

/-- C7: `UpdateOrDie` on a present key is a no-op — the entire observable
cache state (records, hit counts, recency order) is unchanged. -/
theorem update_on_repeat_noop (c : FECCache) (k : Nat) (f : ℚ)
    (h : c.contains k = true) :
    c.UpdateOrDie k f = c :=
  rfl

/-- Witness for C7 at the concrete cache's present key. -/
theorem update_on_repeat_noop_witness :
    cacheEx.contains 5 = true ∧ cacheEx.UpdateOrDie 5 (3 / 4) = cacheEx :=
  ⟨by decide, update_on_repeat_noop cacheEx 5 (3 / 4) (by decide)⟩

/-- C8 counterexample: calling `UpdateOrDie` with a key that is absent is
not fatal — at the concrete absent key `7` the call returns normally with
the state unchanged (the inline body in `fec_cache.h` is empty, so there is
no failure channel at all). -/
theorem update_absent_fatal_counterexample :
    cacheEx.contains 7 = false ∧ cacheEx.UpdateOrDie 7 1 = cacheEx :=
  ⟨by decide, rfl⟩

/-- C8 (amended): calling `UpdateOrDie` with an absent key returns normally
and leaves the cache unchanged; the documented precondition (a prior hit) is
not enforced by the implementation, whose body is empty. -/
theorem update_absent_returns_normally (c : FECCache) (k : Nat) (f : ℚ)
    (h : c.contains k = false) :
    c.UpdateOrDie k f = c :=
  rfl

/-- Witness for the amended C8 at a concrete absent key. -/
theorem update_absent_returns_normally_witness :
    cacheEx.contains 9 = false ∧ cacheEx.UpdateOrDie 9 (1 / 3) = cacheEx :=
  ⟨by decide, update_absent_returns_normally cacheEx 9 (1 / 3) (by decide)⟩

/-- C10: the sentinel `kMinFitness` is an ordinary storable fitness: after
inserting an absent key with fitness `kMinFitness`, `Find` returns
`(kMinFitness, true)` — distinguishable from a miss only by the boolean —
and the stored record is exactly `⟨kMinFitness, 1⟩`, as for any other
fitness; moreover insertion of an absent key succeeds for every fitness
value, so no value is reserved or rejected. -/
theorem sentinel_fitness_storable (c : FECCache) (k : Nat)
    (h : c.contains k = false) (hcap : 1 ≤ c.spec.cacheSize) :
    (∃ c', c.InsertOrDie k kMinFitness = some c' ∧
      (c'.Find k).1 = (kMinFitness, true) ∧
      c'.lookup k = some (CachedEvaluation.ofFitness kMinFitness)) ∧
    ∀ f : ℚ, (c.InsertOrDie k f).isSome = true := by
  constructor
  · refine ⟨_, InsertOrDie_of_contains_false c k kMinFitness h, ?_, ?_⟩
    all_goals
      obtain ⟨m, hm⟩ : ∃ m, c.spec.cacheSize = m + 1 :=
        ⟨c.spec.cacheSize - 1, (Nat.succ_pred_eq_of_pos hcap).symm⟩
    · rw [hm, List.take_succ_cons]
      exact find_fst_of_head c.spec k (CachedEvaluation.ofFitness kMinFitness) _
    · rw [hm, List.take_succ_cons]
      exact lookup_head c.spec k (CachedEvaluation.ofFitness kMinFitness) _
  · intro f
    rw [InsertOrDie_of_contains_false c k f h]
    rfl

/-- Witness for C10 at a concrete cache and absent key. -/
theorem sentinel_fitness_storable_witness :
    (cacheEx.contains 7 = false ∧ 1 ≤ cacheEx.spec.cacheSize) ∧
    (∃ c', cacheEx.InsertOrDie 7 kMinFitness = some c' ∧
      (c'.Find 7).1 = (kMinFitness, true) ∧
      c'.lookup 7 = some (CachedEvaluation.ofFitness kMinFitness)) ∧
    ∀ f : ℚ, (cacheEx.InsertOrDie 7 f).isSome = true :=
  ⟨⟨by decide, by decide⟩,
    sentinel_fitness_storable cacheEx 7 (by decide) (by decide)⟩

/-- C9: every present record has `count ≥ 1` (exactly `1` at creation, with
the fitness supplied at insertion), the invariant is preserved by `Find`,
`InsertOrDie` (eviction included), `UpdateOrDie` and `Clear`, and a record
found by lookup is never the default-constructed record
(`fitness = kMinFitness`, `count = 0`). -/
theorem stored_record_invariant (c : FECCache) (k : Nat) (f : ℚ)
    (hInv : c.Inv) (hcap : 1 ≤ c.spec.cacheSize) :
    ((c.Find k).2).Inv ∧
    (∀ c', c.InsertOrDie k f = some c' →
      c'.Inv ∧ c'.lookup k = some (CachedEvaluation.ofFitness f)) ∧
    (c.UpdateOrDie k f).Inv ∧
    (c.Clear).Inv ∧
    (∀ ev, c.lookup k = some ev →
      1 ≤ ev.count ∧ ev ≠ CachedEvaluation.mkDefault) := by
  refine ⟨?_, ?_, hInv, ?_, ?_⟩
  · cases h : c.cache.find? (fun p => p.1 == k) with
    | none =>
      rw [Find_of_find?_eq_none c k h]
      exact hInv
    | some p =>
      rw [Find_of_find?_eq_some c k p h]
      intro q hq
      rcases List.mem_cons.mp hq with rfl | hq'
      · exact hInv q (List.mem_of_find?_eq_some h)
      · exact hInv q (List.mem_of_mem_filter hq')
  · intro c' hc'
    cases hcb : c.contains k with
    | true =>
      exfalso
      unfold FECCache.InsertOrDie at hc'
      rw [hcb] at hc'
      simp at hc'
    | false =>
      rw [InsertOrDie_of_contains_false c k f hcb] at hc'
      injection hc' with hc''
      subst hc''
      constructor
      · intro q hq
        rcases List.mem_cons.mp (List.mem_of_mem_take hq) with rfl | hq'
        · exact le_refl 1
        · exact hInv q hq'
      · obtain ⟨m, hm⟩ : ∃ m, c.spec.cacheSize = m + 1 :=
          ⟨c.spec.cacheSize - 1, (Nat.succ_pred_eq_of_pos hcap).symm⟩
        rw [hm, List.take_succ_cons]
        exact lookup_head c.spec k (CachedEvaluation.ofFitness f) _
  · intro q hq
    simp [FECCache.Clear] at hq
  · intro ev hev
    unfold FECCache.lookup at hev
    rcases Option.map_eq_some'.mp hev with ⟨p, hp, rfl⟩
    have hge := hInv p (List.mem_of_find?_eq_some hp)
    refine ⟨hge, ?_⟩
    intro hEq
    rw [hEq] at hge
    norm_num [CachedEvaluation.mkDefault] at hge

/-- Witness for C9 at a concrete cache, present key and fitness. -/
theorem stored_record_invariant_witness :
    (cacheEx.Inv ∧ 1 ≤ cacheEx.spec.cacheSize) ∧
    ((cacheEx.Find 5).2).Inv ∧
    (∀ c', cacheEx.InsertOrDie 5 (1 / 4) = some c' →
      c'.Inv ∧ c'.lookup 5 = some (CachedEvaluation.ofFitness (1 / 4))) ∧
    (cacheEx.UpdateOrDie 5 (1 / 4)).Inv ∧
    (cacheEx.Clear).Inv ∧
    (∀ ev, cacheEx.lookup 5 = some ev →
      1 ≤ ev.count ∧ ev ≠ CachedEvaluation.mkDefault) :=
  ⟨⟨by unfold FECCache.Inv; decide, by decide⟩,
    stored_record_invariant cacheEx 5 (1 / 4)
      (by unfold FECCache.Inv; decide) (by decide)⟩

/-- C3: with capacity `cacheSize = rest.length ≥ 1` and `rest.length + 1`
pairwise-distinct keys inserted in sequence with no intervening finds, the
cache afterwards holds exactly `cacheSize` entries, the first-inserted key
is absent (evicted) and each of the remaining keys is present. -/
theorem capacity_plus_one_evicts_first (s : FECCacheSpec) (kf : Nat × ℚ)
    (rest : List (Nat × ℚ)) (hcap : s.cacheSize = rest.length)
    (hpos : 1 ≤ s.cacheSize)
    (hnd : ((kf :: rest).map Prod.fst).Nodup) :
    ∃ c', insertAll (FECCache.init s) (kf :: rest) = some c' ∧
      c'.cache.length = s.cacheSize ∧
      c'.contains kf.1 = false ∧
      ∀ p ∈ rest, c'.contains p.1 = true := by
  have hins := insertAll_eq s (kf :: rest) [] hnd
    (by intro a _ p hp; cases hp) (by simp)
  rw [List.append_nil] at hins
  have hfinal : (((kf :: rest).map entryOf).reverse).take s.cacheSize
      = (rest.map entryOf).reverse := by
    rw [List.map_cons, List.reverse_cons]
    have hlen : ((rest.map entryOf).reverse).length = s.cacheSize := by
      rw [List.length_reverse, List.length_map, hcap]
    rw [← hlen, List.take_left]
  rw [hfinal] at hins
  refine ⟨_, hins, ?_, ?_, ?_⟩
  · simp [hcap]
  · rw [contains_false_iff_forall]
    intro p hp
    rw [List.mem_reverse] at hp
    obtain ⟨q, hq, rfl⟩ := List.mem_map.mp hp
    rw [List.map_cons, List.nodup_cons] at hnd
    intro hEq
    exact hnd.1 (hEq ▸ List.mem_map_of_mem Prod.fst hq)
  · intro p hp
    rw [contains_iff_exists]
    exact ⟨entryOf p, List.mem_reverse.mpr (List.mem_map_of_mem entryOf hp),
      rfl⟩

/-- Witness for C3: capacity `2`, three distinct keys inserted. -/
theorem capacity_plus_one_evicts_first_witness :
    (specEx.cacheSize = [(2, 7 / 10), (3, 9 / 10)].length ∧
      1 ≤ specEx.cacheSize ∧
      (((1, 1 / 2) :: [(2, 7 / 10), (3, 9 / 10)]).map Prod.fst).Nodup) ∧
    ∃ c', insertAll (FECCache.init specEx)
        ((1, 1 / 2) :: [(2, 7 / 10), (3, 9 / 10)]) = some c' ∧
      c'.cache.length = specEx.cacheSize ∧
      c'.contains (1, (1 : ℚ) / 2).1 = false ∧
      ∀ p ∈ [((2 : Nat), (7 : ℚ) / 10), (3, 9 / 10)], c'.contains p.1 = true :=
  ⟨⟨by decide, by decide, by decide⟩,
    capacity_plus_one_evicts_first specEx (1, 1 / 2) [(2, 7 / 10), (3, 9 / 10)]
      (by decide) (by decide) (by decide)⟩

theorem take_two_cons {α : Type} (n : Nat) (x y : α) (l : List α) :
    (x :: y :: l).take (n + 2) = x :: y :: l.take n :=
  rfl

/-- C4: eviction is least-recently-used with recency updated on hits and
inserts: fill capacity `rest.length + 2` with distinct keys
`kf1, kf2, rest…`, hit `kf1` (promoting it), then insert a fresh key `kfN`;
the evicted key is `kf2`, so `kf1` and `kfN` are found and `kf2` is not. -/
theorem lru_hit_promotes_and_second_evicted (s : FECCacheSpec)
    (kf1 kf2 kfN : Nat × ℚ) (rest : List (Nat × ℚ))
    (hcap : s.cacheSize = rest.length + 2)
    (hnd : ((kf1 :: kf2 :: rest).map Prod.fst).Nodup)
    (hnew : kfN.1 ∉ (kf1 :: kf2 :: rest).map Prod.fst) :
    ∃ c1 c2,
      insertAll (FECCache.init s) (kf1 :: kf2 :: rest) = some c1 ∧
      (c1.Find kf1.1).1 = (kf1.2, true) ∧
      ((c1.Find kf1.1).2).InsertOrDie kfN.1 kfN.2 = some c2 ∧
      ((c2.Find kf1.1).1).2 = true ∧
      ((c2.Find kfN.1).1).2 = true ∧
      ((c2.Find kf2.1).1).2 = false := by
  have hins := insertAll_eq s (kf1 :: kf2 :: rest) [] hnd
    (by intro a _ p hp; cases hp) (by simp)
  rw [List.append_nil] at hins
  rw [List.map_cons, List.map_cons, List.nodup_cons] at hnd
  obtain ⟨ha, hnd2⟩ := hnd
  rw [List.nodup_cons] at hnd2
  obtain ⟨hb, hndR⟩ := hnd2
  rw [List.map_cons, List.map_cons] at hnew
  have hab : kf1.1 ≠ kf2.1 := by
    intro h
    exact ha (by rw [h]; exact List.mem_cons_self _ _)
  have haR : kf1.1 ∉ rest.map Prod.fst :=
    fun h => ha (List.mem_cons_of_mem _ h)
  have hna : kfN.1 ≠ kf1.1 := by
    intro h
    exact hnew (by rw [h]; exact List.mem_cons_self _ _)
  have hnb : kfN.1 ≠ kf2.1 := by
    intro h
    refine hnew ?_
    rw [h]
    exact List.mem_cons_of_mem _ (List.mem_cons_self _ _)
  have hnR : kfN.1 ∉ rest.map Prod.fst :=
    fun h => hnew (List.mem_cons_of_mem _ (List.mem_cons_of_mem _ h))
  have hlenR : ((rest.map entryOf).reverse).length = rest.length := by
    simp
  have hshape : (((kf1 :: kf2 :: rest).map entryOf).reverse).take s.cacheSize
      = ((rest.map entryOf).reverse ++ [entryOf kf2]) ++ [entryOf kf1] := by
    rw [List.map_cons, List.map_cons, List.reverse_cons, List.reverse_cons]
    apply List.take_of_length_le
    simp only [List.length_append, List.length_reverse, List.length_map,
      List.length_cons, List.length_nil, hcap]
    omega
  rw [hshape] at hins
  have hXkeys : ∀ p ∈ (rest.map entryOf).reverse ++ [entryOf kf2],
      p.1 ≠ kf1.1 := by
    intro p hp
    rcases List.mem_append.mp hp with hp' | hp'
    · rw [List.mem_reverse] at hp'
      obtain ⟨q, hq, rfl⟩ := List.mem_map.mp hp'
      intro hEq
      exact haR (hEq ▸ List.mem_map_of_mem Prod.fst hq)
    · rw [List.mem_singleton] at hp'
      subst hp'
      exact fun hEq => hab hEq.symm
  have hfind1 : ((((rest.map entryOf).reverse ++ [entryOf kf2]) ++
      [entryOf kf1]).find? (fun p => p.1 == kf1.1)) = some (entryOf kf1) := by
    rw [List.find?_append]
    have h1 : ((rest.map entryOf).reverse ++ [entryOf kf2]).find?
        (fun p => p.1 == kf1.1) = none := by
      rw [List.find?_eq_none]
      intro p hp
      simpa using hXkeys p hp
    have h2 : ([entryOf kf1]).find? (fun p => p.1 == kf1.1)
        = some (entryOf kf1) :=
      List.find?_cons_of_pos _ (by simp [entryOf])
    rw [h1, h2]
    rfl
  have hFind1 := Find_of_find?_eq_some
    (FECCache.mk s (((rest.map entryOf).reverse ++ [entryOf kf2]) ++
      [entryOf kf1])) kf1.1 (entryOf kf1) hfind1
  have hfilt : ((((rest.map entryOf).reverse ++ [entryOf kf2]) ++
      [entryOf kf1]).filter (fun q => q.1 != kf1.1))
      = (rest.map entryOf).reverse ++ [entryOf kf2] := by
    rw [List.filter_append]
    rw [List.filter_eq_self.mpr (fun p hp => by simpa using hXkeys p hp)]
    have hone : ([entryOf kf1]).filter (fun q => q.1 != kf1.1) = [] := by
      simp [entryOf]
    rw [hone, List.append_nil]
  have hcont2 : (FECCache.mk s (entryOf kf1 ::
      ((rest.map entryOf).reverse ++ [entryOf kf2]))).contains kfN.1
      = false := by
    rw [contains_false_iff_forall]
    intro p hp
    rcases List.mem_cons.mp hp with rfl | hp'
    · exact fun hEq => hna hEq.symm
    · rcases List.mem_append.mp hp' with hp2 | hp2
      · rw [List.mem_reverse] at hp2
        obtain ⟨q, hq, rfl⟩ := List.mem_map.mp hp2
        intro hEq
        exact hnR (hEq ▸ List.mem_map_of_mem Prod.fst hq)
      · rw [List.mem_singleton] at hp2
        subst hp2
        exact fun hEq => hnb hEq.symm
  have htake : (((kfN.1, CachedEvaluation.ofFitness kfN.2) :: entryOf kf1 ::
      ((rest.map entryOf).reverse ++ [entryOf kf2])).take s.cacheSize)
      = (kfN.1, CachedEvaluation.ofFitness kfN.2) :: entryOf kf1 ::
        (rest.map entryOf).reverse := by
    rw [hcap, take_two_cons, ← hlenR, List.take_left]
  refine ⟨FECCache.mk s (((rest.map entryOf).reverse ++ [entryOf kf2]) ++
      [entryOf kf1]),
    FECCache.mk s ((kfN.1, CachedEvaluation.ofFitness kfN.2) :: entryOf kf1 ::
      (rest.map entryOf).reverse),
    hins, ?_, ?_, ?_, ?_, ?_⟩
  · rw [hFind1]
    rfl
  · rw [hFind1]
    show (FECCache.mk s (entryOf kf1 ::
      ((((rest.map entryOf).reverse ++ [entryOf kf2]) ++ [entryOf kf1]).filter
        (fun q => q.1 != kf1.1)))).InsertOrDie kfN.1 kfN.2 = _
    rw [hfilt]
    rw [InsertOrDie_of_contains_false _ kfN.1 kfN.2 hcont2]
    show some (FECCache.mk s ((((kfN.1, CachedEvaluation.ofFitness kfN.2) ::
      entryOf kf1 :: ((rest.map entryOf).reverse ++ [entryOf kf2]))).take
        s.cacheSize)) = _
    rw [htake]
  · rw [Find_snd_eq_contains, contains_iff_exists]
    exact ⟨entryOf kf1, List.mem_cons_of_mem _ (List.mem_cons_self _ _), rfl⟩
  · rw [Find_snd_eq_contains, contains_iff_exists]
    exact ⟨_, List.mem_cons_self _ _, rfl⟩
  · rw [Find_snd_eq_contains, contains_false_iff_forall]
    intro p hp
    rcases List.mem_cons.mp hp with rfl | hp'
    · exact hnb
    · rcases List.mem_cons.mp hp' with rfl | hp2
      · exact hab
      · rw [List.mem_reverse] at hp2
        obtain ⟨q, hq, rfl⟩ := List.mem_map.mp hp2
        intro hEq
        exact hb (hEq ▸ List.mem_map_of_mem Prod.fst hq)

/-- Witness for C4: the spec's example scenario — capacity `2`, keys `1, 2`
inserted, `1` hit, key `3` inserted, `2` evicted. -/
theorem lru_hit_promotes_and_second_evicted_witness :
    (specEx.cacheSize = ([] : List (Nat × ℚ)).length + 2 ∧
      (((1, (1 : ℚ) / 2) :: (2, 7 / 10) :: []).map Prod.fst).Nodup ∧
      (3, (9 : ℚ) / 10).1 ∉ ((1, (1 : ℚ) / 2) :: (2, 7 / 10) :: []).map
        Prod.fst) ∧
    ∃ c1 c2,
      insertAll (FECCache.init specEx) ((1, 1 / 2) :: (2, 7 / 10) :: [])
        = some c1 ∧
      (c1.Find (1, (1 : ℚ) / 2).1).1 = ((1, (1 : ℚ) / 2).2, true) ∧
      ((c1.Find (1, (1 : ℚ) / 2).1).2).InsertOrDie (3, (9 : ℚ) / 10).1
        (3, (9 : ℚ) / 10).2 = some c2 ∧
      ((c2.Find (1, (1 : ℚ) / 2).1).1).2 = true ∧
      ((c2.Find (3, (9 : ℚ) / 10).1).1).2 = true ∧
      ((c2.Find (2, (7 : ℚ) / 10).1).1).2 = false :=
  ⟨⟨by decide, by decide, by decide⟩,
    lru_hit_promotes_and_second_evicted specEx (1, 1 / 2) (2, 7 / 10)
      (3, 9 / 10) [] (by decide) (by decide) (by decide)⟩
